import Mathlib

/-!
Shallow embedding of the task-manager store (src/main.py, class TaskManager).

The store state is the in-memory list `self.tasks`; each operation is
modelled as a pure function from the current list (plus the operation's
inputs) to a triple `(tasks', output, saved)`:
  * `tasks'` is the list after the operation (Python mutates `self.tasks`
    in place; the embedding rebuilds the list),
  * `output` is the operation's observable outcome (what the method prints
    or signals: not-found, already-completed, removed description, ...),
  * `saved` is `true` exactly when the method calls `self.save_tasks()`
    (the persistence write).
Timestamps (`datetime.now().strftime(...)`) are modelled by passing the
formatted time string `now` as an explicit argument.
-/

namespace TaskManager

/-- A task record, as built in `add_task` (src/main.py lines 40–45):
keys `id`, `description`, `completed`, `created_at`. -/
structure Task where
  id : Nat
  description : String
  completed : Bool
  created_at : String
deriving Repr, DecidableEq

/-- The three observable outcomes of `complete_task`
(src/main.py lines 72–83): the not-found message, the
already-completed message, and the completed-transition message. -/
inductive CompleteOutcome where
  | notFound
  | alreadyCompleted
  | transitioned
deriving Repr, DecidableEq

/-- `TaskManager.add_task` (src/main.py lines 38–48): builds a task with
`id = len(self.tasks) + 1`, the given description, `completed = False`
and `created_at = now`, appends it, and always saves. -/
def add_task (tasks : List Task) (description : String) (now : String) :
    List Task × Task × Bool :=
  let task : Task :=
    { id := tasks.length + 1
      description := description
      completed := false
      created_at := now }
  (tasks ++ [task], task, true)

/-- `TaskManager.complete_task` (src/main.py lines 72–83): scans
`self.tasks` in order for the first task with matching `id`; if it is
already completed, signals and leaves the state alone (no save); else
sets `completed = True` and saves; if the scan finds nothing, signals
not-found. -/
def complete_task : List Task → Nat → List Task × CompleteOutcome × Bool
  | [], _ => ([], .notFound, false)
  | task :: rest, task_id =>
    if task.id = task_id then
      if task.completed then
        (task :: rest, .alreadyCompleted, false)
      else
        ({ task with completed := true } :: rest, .transitioned, true)
    else
      ((task :: (complete_task rest task_id).1),
       (complete_task rest task_id).2.1,
       (complete_task rest task_id).2.2)

/-- `TaskManager.delete_task` (src/main.py lines 85–94): removes the first
task with matching `id` (`self.tasks.pop(i)`), returns its description and
saves; signals not-found (`none`) when no task matches. -/
def delete_task : List Task → Nat → List Task × Option String × Bool
  | [], _ => ([], none, false)
  | task :: rest, task_id =>
    if task.id = task_id then
      (rest, some task.description, true)
    else
      ((task :: (delete_task rest task_id).1),
       (delete_task rest task_id).2.1,
       (delete_task rest task_id).2.2)

/-- `TaskManager.clear_completed` (src/main.py lines 96–105): keeps the
tasks with `completed == False`, returns how many were removed
(`initial_count - len(self.tasks)`), and saves only when that count is
positive. -/
def clear_completed (tasks : List Task) : List Task × Nat × Bool :=
  let remaining := tasks.filter fun t => !t.completed
  let removed := tasks.length - remaining.length
  (remaining, removed, decide (0 < removed))

/-- `TaskManager.edit_task` (src/main.py lines 107–118): replaces the
description of the first task with matching `id`, returns the pair of old
and new description and saves; signals not-found (`none`) when no task
matches. -/
def edit_task : List Task → Nat → String → List Task × Option (String × String) × Bool
  | [], _, _ => ([], none, false)
  | task :: rest, task_id, new_description =>
    if task.id = task_id then
      ({ task with description := new_description } :: rest,
       some (task.description, new_description), true)
    else
      ((task :: (edit_task rest task_id new_description).1),
       (edit_task rest task_id new_description).2.1,
       (edit_task rest task_id new_description).2.2)

/-- The statistics report of `show_statistics` (src/main.py lines 126–129):
`total`, `completed`, `pending` and the completion rate before display
formatting. -/
structure Statistics where
  total : Nat
  completed : Nat
  pending : Nat
  completion_rate : ℚ
deriving Repr, DecidableEq

/-- The expression `(completed / total * 100) if total > 0 else 0`
(src/main.py line 129), with Python float division modelled as exact
rational division. -/
def completionRate (completed total : Nat) : ℚ :=
  if 0 < total then (completed : ℚ) / (total : ℚ) * 100 else 0

/-- `TaskManager.show_statistics` (src/main.py lines 120–138): with no
tasks it only reports that there is nothing to show (`none`); otherwise
it computes `total = len(self.tasks)`,
`completed = sum(1 for t in self.tasks if t["completed"])`,
`pending = total - completed` and the completion rate. It never touches
`self.tasks` and never calls `save_tasks`. -/
def show_statistics (tasks : List Task) : List Task × Option Statistics × Bool :=
  if tasks.isEmpty then (tasks, none, false)
  else
    let total := tasks.length
    let completed := tasks.countP fun t => t.completed
    (tasks,
     some { total := total
            completed := completed
            pending := total - completed
            completion_rate := completionRate completed total },
     false)

/-- Rounding to the nearest integer with ties to even, the rule of
Python's fixed-point display formatting. -/
def roundHalfEven (q : ℚ) : ℤ :=
  if q - ⌊q⌋ < 1 / 2 then ⌊q⌋
  else if 1 / 2 < q - ⌊q⌋ then ⌊q⌋ + 1
  else if Even ⌊q⌋ then ⌊q⌋ else ⌊q⌋ + 1

/-- The displayed completion rate: models the one-decimal rounding of
`f"{completion_rate:.1f}"` (src/main.py line 137) as exact decimal
rounding of the rational value. (Python formats the IEEE double
approximation, which agrees except when the double's representation
error crosses a decimal tie.) -/
def round1 (q : ℚ) : ℚ :=
  (roundHalfEven (10 * q) : ℚ) / 10

/-- Models line 137's displayed rate for a given store state. -/
def formatted_rate (tasks : List Task) : ℚ :=
  round1 (completionRate (tasks.countP fun t => t.completed) tasks.length)

/-- Character-list version of Python's `str.startswith` as used to decide
substring containment. -/
def startsWithChars : List Char → List Char → Bool
  | _, [] => true
  | [], _ :: _ => false
  | c :: hs, n :: ns => c = n && startsWithChars hs ns

/-- Python's substring test `needle in haystack` (src/main.py line 145),
on character lists: some tail of the haystack starts with the needle. -/
def containsChars : List Char → List Char → Bool
  | [], needle => needle.isEmpty
  | c :: hs, needle => startsWithChars (c :: hs) needle || containsChars hs needle

/-- `TaskManager.search_tasks` (src/main.py lines 140–165): keeps the tasks
whose lower-cased description contains the lower-cased keyword as a
substring, in order; reads `self.tasks` only and never saves. -/
def search_tasks (tasks : List Task) (keyword : String) :
    List Task × List Task × Bool :=
  let keyword_lower := keyword.toLower
  (tasks,
   tasks.filter fun task =>
     containsChars task.description.toLower.data keyword_lower.data,
   false)

/-- The store states reachable from the empty startup state by any
sequence of the five mutating operations. -/
inductive Reachable : List Task → Prop where
  | init : Reachable []
  | add (ts : List Task) (d now : String) :
      Reachable ts → Reachable (add_task ts d now).1
  | complete (ts : List Task) (i : Nat) :
      Reachable ts → Reachable (complete_task ts i).1
  | delete (ts : List Task) (i : Nat) :
      Reachable ts → Reachable (delete_task ts i).1
  | edit (ts : List Task) (i : Nat) (d : String) :
      Reachable ts → Reachable (edit_task ts i d).1
  | clear (ts : List Task) :
      Reachable ts → Reachable (clear_completed ts).1

/-- The store states reachable using only the operations that never
remove a task: add, complete and edit. -/
inductive ReachableNoRemoval : List Task → Prop where
  | init : ReachableNoRemoval []
  | add (ts : List Task) (d now : String) :
      ReachableNoRemoval ts → ReachableNoRemoval (add_task ts d now).1
  | complete (ts : List Task) (i : Nat) :
      ReachableNoRemoval ts → ReachableNoRemoval (complete_task ts i).1
  | edit (ts : List Task) (i : Nat) (d : String) :
      ReachableNoRemoval ts → ReachableNoRemoval (edit_task ts i d).1

/-- A reachable store state holding two tasks with the same id: after
add, add, delete 1, add, the final `add_task` assigns
`id = len(tasks) + 1 = 2`, which collides with the surviving task's id. -/
def dupState : List Task :=
  [{ id := 2, description := "b", completed := false, created_at := "t2" },
   { id := 2, description := "c", completed := false, created_at := "t3" }]

/-! Helper lemmas: how each scanning operation behaves when no task
matches the requested id, and when the first match sits at index `j`. -/

/-- When no task has the requested id, `complete_task` signals not-found,
changes nothing and does not save. -/
lemma complete_of_not_mem (ts : List Task) (i : Nat) (h : ∀ t ∈ ts, t.id ≠ i) :
    complete_task ts i = (ts, .notFound, false) := by
  induction ts with
  | nil => rfl
  | cons t rest ih =>
    have ht : t.id ≠ i := h t (List.mem_cons_self t rest)
    have hrest : ∀ x ∈ rest, x.id ≠ i := fun x hx => h x (List.mem_cons_of_mem t hx)
    simp [complete_task, ht, ih hrest]

/-- When the first task with the requested id sits at index `j`,
`complete_task` either reports already-completed (no change, no save) or
flips exactly that task's flag and saves. -/
lemma complete_of_first (ts : List Task) (i : Nat) :
    ∀ (j : Nat) (hj : j < ts.length), (ts.get ⟨j, hj⟩).id = i →
    (∀ k (hk : k < j), (ts.get ⟨k, hk.trans hj⟩).id ≠ i) →
    complete_task ts i =
      if (ts.get ⟨j, hj⟩).completed then
        (ts, .alreadyCompleted, false)
      else
        (ts.set j { ts.get ⟨j, hj⟩ with completed := true }, .transitioned, true) := by
  induction ts with
  | nil => intro j hj; exact absurd hj (Nat.not_lt_zero j)
  | cons t rest ih =>
    intro j hj hid hfirst
    cases j with
    | zero =>
      simp only [List.get] at hid ⊢
      by_cases hc : t.completed <;> simp [complete_task, hid, hc]
    | succ j' =>
      have ht : t.id ≠ i := hfirst 0 (Nat.succ_pos j')
      have hj' : j' < rest.length := Nat.lt_of_succ_lt_succ hj
      have hid' : (rest.get ⟨j', hj'⟩).id = i := hid
      have hfirst' : ∀ k (hk : k < j'), (rest.get ⟨k, hk.trans hj'⟩).id ≠ i :=
        fun k hk => hfirst (k + 1) (Nat.succ_lt_succ hk)
      have hrec := ih j' hj' hid' hfirst'
      by_cases hc : rest[j'].completed <;>
        simp [complete_task, ht, hrec, hc, List.set]

/-- When no task has the requested id, `delete_task` signals not-found,
changes nothing and does not save. -/
lemma delete_of_not_mem (ts : List Task) (i : Nat) (h : ∀ t ∈ ts, t.id ≠ i) :
    delete_task ts i = (ts, none, false) := by
  induction ts with
  | nil => rfl
  | cons t rest ih =>
    have ht : t.id ≠ i := h t (List.mem_cons_self t rest)
    have hrest : ∀ x ∈ rest, x.id ≠ i := fun x hx => h x (List.mem_cons_of_mem t hx)
    simp [delete_task, ht, ih hrest]

/-- When the first task with the requested id sits at index `j`,
`delete_task` removes exactly that position, returns its description and
saves. -/
lemma delete_of_first (ts : List Task) (i : Nat) :
    ∀ (j : Nat) (hj : j < ts.length), (ts.get ⟨j, hj⟩).id = i →
    (∀ k (hk : k < j), (ts.get ⟨k, hk.trans hj⟩).id ≠ i) →
    delete_task ts i = (ts.eraseIdx j, some (ts.get ⟨j, hj⟩).description, true) := by
  induction ts with
  | nil => intro j hj; exact absurd hj (Nat.not_lt_zero j)
  | cons t rest ih =>
    intro j hj hid hfirst
    cases j with
    | zero =>
      simp only [List.get] at hid ⊢
      simp [delete_task, hid]
    | succ j' =>
      have ht : t.id ≠ i := hfirst 0 (Nat.succ_pos j')
      have hj' : j' < rest.length := Nat.lt_of_succ_lt_succ hj
      have hfirst' : ∀ k (hk : k < j'), (rest.get ⟨k, hk.trans hj'⟩).id ≠ i :=
        fun k hk => hfirst (k + 1) (Nat.succ_lt_succ hk)
      have hrec := ih j' hj' hid hfirst'
      simp [delete_task, ht, hrec]

/-- When no task has the requested id, `edit_task` signals not-found,
changes nothing and does not save. -/
lemma edit_of_not_mem (ts : List Task) (i : Nat) (d : String) (h : ∀ t ∈ ts, t.id ≠ i) :
    edit_task ts i d = (ts, none, false) := by
  induction ts with
  | nil => rfl
  | cons t rest ih =>
    have ht : t.id ≠ i := h t (List.mem_cons_self t rest)
    have hrest : ∀ x ∈ rest, x.id ≠ i := fun x hx => h x (List.mem_cons_of_mem t hx)
    simp [edit_task, ht, ih hrest]

/-- When the first task with the requested id sits at index `j`,
`edit_task` rewrites exactly that task's description, returns the old and
new descriptions and saves. -/
lemma edit_of_first (ts : List Task) (i : Nat) (d : String) :
    ∀ (j : Nat) (hj : j < ts.length), (ts.get ⟨j, hj⟩).id = i →
    (∀ k (hk : k < j), (ts.get ⟨k, hk.trans hj⟩).id ≠ i) →
    edit_task ts i d =
      (ts.set j { ts.get ⟨j, hj⟩ with description := d },
       some ((ts.get ⟨j, hj⟩).description, d), true) := by
  induction ts with
  | nil => intro j hj; exact absurd hj (Nat.not_lt_zero j)
  | cons t rest ih =>
    intro j hj hid hfirst
    cases j with
    | zero =>
      simp only [List.get] at hid ⊢
      simp [edit_task, hid]
    | succ j' =>
      have ht : t.id ≠ i := hfirst 0 (Nat.succ_pos j')
      have hj' : j' < rest.length := Nat.lt_of_succ_lt_succ hj
      have hfirst' : ∀ k (hk : k < j'), (rest.get ⟨k, hk.trans hj'⟩).id ≠ i :=
        fun k hk => hfirst (k + 1) (Nat.succ_lt_succ hk)
      have hrec := ih j' hj' hid hfirst'
      simp [edit_task, ht, hrec, List.set]

/-- A list holding a task with the requested id has a first position
holding it: everything before that position misses the id. -/
lemma exists_first_match (ts : List Task) (i : Nat) (h : ∃ t ∈ ts, t.id = i) :
    ∃ (j : Nat) (hj : j < ts.length), (ts.get ⟨j, hj⟩).id = i ∧
      ∀ k (hk : k < j), (ts.get ⟨k, hk.trans hj⟩).id ≠ i := by
  induction ts with
  | nil => simp at h
  | cons t rest ih =>
    by_cases ht : t.id = i
    · exact ⟨0, Nat.succ_pos rest.length, ht, fun k hk => absurd hk (Nat.not_lt_zero k)⟩
    · have hrest : ∃ x ∈ rest, x.id = i := by
        rcases h with ⟨x, hx, hxi⟩
        rcases List.mem_cons.1 hx with rfl | hx'
        · exact absurd hxi ht
        · exact ⟨x, hx', hxi⟩
      rcases ih hrest with ⟨j, hj, hid, hfirst⟩
      refine ⟨j + 1, Nat.succ_lt_succ hj, hid, ?_⟩
      intro k hk
      cases k with
      | zero => exact ht
      | succ k' => exact hfirst k' (Nat.lt_of_succ_lt_succ hk)

/-- Completing a task never changes the stored ids. -/
lemma complete_map_id (ts : List Task) (i : Nat) :
    (complete_task ts i).1.map Task.id = ts.map Task.id := by
  induction ts with
  | nil => rfl
  | cons t rest ih =>
    by_cases ht : t.id = i
    · by_cases hc : t.completed <;> simp [complete_task, ht, hc]
    · simp [complete_task, ht, ih]

/-- Editing a task never changes the stored ids. -/
lemma edit_map_id (ts : List Task) (i : Nat) (d : String) :
    (edit_task ts i d).1.map Task.id = ts.map Task.id := by
  induction ts with
  | nil => rfl
  | cons t rest ih =>
    by_cases ht : t.id = i
    · simp [edit_task, ht]
    · simp [edit_task, ht, ih]

/-- Folding a batch of adds over a store extends the stored ids by the
consecutive block that starts right after the current count. -/
lemma addAll_map_id (l : List (String × String)) :
    ∀ ts : List Task,
      (l.foldl (fun acc p => (add_task acc p.1 p.2).1) ts).map Task.id
        = ts.map Task.id ++ List.range' (ts.length + 1) l.length := by
  induction l with
  | nil => intro ts; simp
  | cons p l ih =>
    intro ts
    rw [List.foldl_cons, ih]
    simp [add_task, List.range'_succ, Nat.add_comm, Nat.add_assoc]

/-- Without delete and clear-completed, the stored ids are exactly
`1, 2, ..., n` in order. -/
lemma noRemoval_ids (ts : List Task) (h : ReachableNoRemoval ts) :
    ts.map Task.id = List.range' 1 ts.length := by
  induction h with
  | init => rfl
  | add ts d now _ ih =>
    have hl : (add_task ts d now).1.length = ts.length + 1 := by simp [add_task]
    show (ts ++ [_]).map Task.id = _
    rw [hl, List.range'_concat]
    simp [ih, Nat.add_comm]
  | complete ts i _ ih =>
    have hlen : (complete_task ts i).1.length = ts.length := by
      have := congrArg List.length (complete_map_id ts i)
      simpa using this
    rw [complete_map_id, hlen, ih]
  | edit ts i d _ ih =>
    have hlen : (edit_task ts i d).1.length = ts.length := by
      have := congrArg List.length (edit_map_id ts i d)
      simpa using this
    rw [edit_map_id, hlen, ih]

/-- The duplicate-id state is reachable: add "a", add "b", delete 1,
add "c". -/
lemma reachable_dupState : Reachable dupState := by
  have h1 := Reachable.add [] "a" "t1" Reachable.init
  have h2 := Reachable.add _ "b" "t2" h1
  have h3 := Reachable.delete _ 1 h2
  have h4 := Reachable.add _ "c" "t3" h3
  simpa [add_task, delete_task, dupState] using h4

/-- C1, counterexample: id uniqueness does not hold at every reachable
instant. After add "a", add "b", delete 1, add "c", the store is
`dupState`, holding two tasks with id 2: `add_task` assigns
`id = len(tasks) + 1`, which collides with a surviving task's id once a
deletion happened out of order. -/
theorem id_uniqueness_fails_after_delete_then_add :
    ¬ ∀ ts : List Task, Reachable ts → (ts.map Task.id).Nodup := by
  intro hall
  have hdup := hall dupState reachable_dupState
  simp [dupState] at hdup

/-- C1, amended: at every instant reachable by add, complete and edit
operations alone (no delete, no clear-completed), the stored ids are
exactly `1, ..., n`, so the id field is unique among all tasks currently
in the store. -/
theorem id_unique_without_removals (ts : List Task) (h : ReachableNoRemoval ts) :
    ts.map Task.id = List.range' 1 ts.length ∧ (ts.map Task.id).Nodup := by
  have hids := noRemoval_ids ts h
  exact ⟨hids, hids ▸ List.nodup_range' 1 ts.length⟩

/-- C1, witness: the amended invariant evaluated on the store reached by
a single add. -/
theorem id_unique_without_removals_witness :
    (add_task [] "a" "t").1.map Task.id = List.range' 1 (add_task [] "a" "t").1.length ∧
    ((add_task [] "a" "t").1.map Task.id).Nodup :=
  id_unique_without_removals _ (ReachableNoRemoval.add [] "a" "t" ReachableNoRemoval.init)

/-- C2: `add_task` appends one task at the end of the sequence, with
id equal to the current count plus one, `completed = false` and the
creation timestamp, returns it, saves, and leaves every existing task
unchanged; and a pure sequence of adds started from the empty store
numbers the tasks `1, 2, ..., n` — strictly increasing, no gaps. -/
theorem add_task_correct :
    (∀ (ts : List Task) (d now : String),
      add_task ts d now =
        (ts ++ [{ id := ts.length + 1, description := d, completed := false,
                  created_at := now }],
         { id := ts.length + 1, description := d, completed := false,
           created_at := now },
         true)) ∧
    (∀ l : List (String × String),
      (l.foldl (fun acc p => (add_task acc p.1 p.2).1) []).map Task.id
        = List.range' 1 l.length) := by
  refine ⟨fun ts d now => rfl, fun l => ?_⟩
  rw [addAll_map_id]
  simp

/-- Case analysis for `complete_task`: either no task matches (not-found,
nothing changes, no save), or the first match is already completed
(signal, nothing changes, no save), or the first match gets its flag set
(transition, save). -/
lemma complete_cases (ts : List Task) (i : Nat) :
    (complete_task ts i = (ts, .notFound, false) ∧ ∀ t ∈ ts, t.id ≠ i) ∨
    (∃ (j : Nat) (hj : j < ts.length),
      (ts.get ⟨j, hj⟩).id = i ∧
      (∀ k (hk : k < j), (ts.get ⟨k, hk.trans hj⟩).id ≠ i) ∧
      (((ts.get ⟨j, hj⟩).completed = true ∧
          complete_task ts i = (ts, .alreadyCompleted, false)) ∨
       ((ts.get ⟨j, hj⟩).completed = false ∧
          complete_task ts i =
            (ts.set j { ts.get ⟨j, hj⟩ with completed := true },
             .transitioned, true)))) := by
  by_cases hex : ∃ t ∈ ts, t.id = i
  · rcases exists_first_match ts i hex with ⟨j, hj, hid, hfirst⟩
    right
    refine ⟨j, hj, hid, hfirst, ?_⟩
    have hchar := complete_of_first ts i j hj hid hfirst
    by_cases hc : (ts.get ⟨j, hj⟩).completed
    · exact Or.inl ⟨hc, by rwa [if_pos hc] at hchar⟩
    · refine Or.inr ⟨by simpa using hc, by rwa [if_neg hc] at hchar⟩
  · left
    push_neg at hex
    exact ⟨complete_of_not_mem ts i hex, hex⟩

/-- Completing the same id twice: when the store holds a task with that
id, the second call finds the first match already completed, signals it,
changes nothing and does not save. -/
lemma complete_complete (ts : List Task) (i : Nat) (h : ∃ t ∈ ts, t.id = i) :
    complete_task (complete_task ts i).1 i
      = ((complete_task ts i).1, .alreadyCompleted, false) := by
  rcases exists_first_match ts i h with ⟨j, hj, hid, hfirst⟩
  have hchar := complete_of_first ts i j hj hid hfirst
  by_cases hc : (ts.get ⟨j, hj⟩).completed
  · rw [hchar, if_pos hc]
    show complete_task ts i = (ts, .alreadyCompleted, false)
    rw [hchar, if_pos hc]
  · rw [hchar, if_neg hc]
    show complete_task (ts.set j _) i = _
    have hlen : j < (ts.set j { ts.get ⟨j, hj⟩ with completed := true }).length := by
      simpa using hj
    have hidE : ts[j].id = i := by simpa using hid
    have hid2 : ((ts.set j { ts.get ⟨j, hj⟩ with completed := true }).get ⟨j, hlen⟩).id = i := by
      simp [hidE]
    have hfirst2 : ∀ k (hk : k < j),
        ((ts.set j { ts.get ⟨j, hj⟩ with completed := true }).get ⟨k, hk.trans hlen⟩).id ≠ i := by
      intro k hk
      have hne : j ≠ k := (Nat.ne_of_lt hk).symm
      have hkl : k < ts.length := hk.trans hj
      simpa [List.getElem_set_ne hne] using hfirst k hk
    have hchar2 := complete_of_first _ i j hlen hid2 hfirst2
    have hc2 : ((ts.set j { ts.get ⟨j, hj⟩ with completed := true }).get ⟨j, hlen⟩).completed = true := by
      simp
    rw [hchar2, if_pos hc2]

/-- C3: `complete_task` has exactly the three outcomes — not-found
(signal only, state unchanged, no save), already-completed (signal only,
state unchanged, no save), transitioned (the first matching task's flag
is set to true and the store is saved) — and on a store holding a task
with the requested id it is idempotent: the second call in succession
changes nothing and signals already-completed. -/
theorem complete_task_outcomes_and_idempotent (ts : List Task) (task_id : Nat)
    (h : ∃ t ∈ ts, t.id = task_id) :
    (∀ (ts' : List Task) (i : Nat),
      ((complete_task ts' i).2.1 = .notFound ∨
       (complete_task ts' i).2.1 = .alreadyCompleted ∨
       (complete_task ts' i).2.1 = .transitioned) ∧
      ((complete_task ts' i).2.1 = .notFound ↔ ∀ t ∈ ts', t.id ≠ i) ∧
      ((complete_task ts' i).2.1 = .notFound →
        (complete_task ts' i).1 = ts' ∧ (complete_task ts' i).2.2 = false) ∧
      ((complete_task ts' i).2.1 = .alreadyCompleted →
        (complete_task ts' i).1 = ts' ∧ (complete_task ts' i).2.2 = false) ∧
      ((complete_task ts' i).2.1 = .transitioned →
        (complete_task ts' i).2.2 = true ∧
        ∃ (j : Nat) (hj : j < ts'.length),
          (ts'.get ⟨j, hj⟩).id = i ∧ (ts'.get ⟨j, hj⟩).completed = false ∧
          (∀ k (hk : k < j), (ts'.get ⟨k, hk.trans hj⟩).id ≠ i) ∧
          (complete_task ts' i).1 =
            ts'.set j { ts'.get ⟨j, hj⟩ with completed := true })) ∧
    (complete_task (complete_task ts task_id).1 task_id).1
      = (complete_task ts task_id).1 ∧
    (complete_task (complete_task ts task_id).1 task_id).2.1 = .alreadyCompleted ∧
    (complete_task (complete_task ts task_id).1 task_id).2.2 = false := by
  refine ⟨fun ts' i => ?_, ?_⟩
  · rcases complete_cases ts' i with ⟨heq, hnone⟩ | ⟨j, hj, hid, hfirst, hrest⟩
    · rw [heq]
      refine ⟨Or.inl rfl, ⟨fun _ => hnone, fun _ => rfl⟩, fun _ => ⟨rfl, rfl⟩,
        by simp, by simp⟩
    · have hmem : ¬ ∀ t ∈ ts', t.id ≠ i := by
        push_neg
        exact ⟨ts'.get ⟨j, hj⟩, List.get_mem ts' j hj, hid⟩
      rcases hrest with ⟨hc, heq⟩ | ⟨hc, heq⟩
      · rw [heq]
        exact ⟨Or.inr (Or.inl rfl), ⟨by simp, fun hnone => absurd hnone hmem⟩,
          by simp, fun _ => ⟨rfl, rfl⟩, by simp⟩
      · rw [heq]
        refine ⟨Or.inr (Or.inr rfl), ⟨by simp, fun hnone => absurd hnone hmem⟩,
          by simp, by simp, fun _ => ⟨rfl, ⟨j, hj, hid, hc, hfirst, rfl⟩⟩⟩
  · rw [complete_complete ts task_id h]
    exact ⟨rfl, rfl, rfl⟩

/-- C3, witness: on a one-task store, completing id 1 twice leaves the
state of the first call and signals already-completed without saving. -/
theorem complete_task_outcomes_and_idempotent_witness :
    (∀ (ts' : List Task) (i : Nat),
      ((complete_task ts' i).2.1 = .notFound ∨
       (complete_task ts' i).2.1 = .alreadyCompleted ∨
       (complete_task ts' i).2.1 = .transitioned) ∧
      ((complete_task ts' i).2.1 = .notFound ↔ ∀ t ∈ ts', t.id ≠ i) ∧
      ((complete_task ts' i).2.1 = .notFound →
        (complete_task ts' i).1 = ts' ∧ (complete_task ts' i).2.2 = false) ∧
      ((complete_task ts' i).2.1 = .alreadyCompleted →
        (complete_task ts' i).1 = ts' ∧ (complete_task ts' i).2.2 = false) ∧
      ((complete_task ts' i).2.1 = .transitioned →
        (complete_task ts' i).2.2 = true ∧
        ∃ (j : Nat) (hj : j < ts'.length),
          (ts'.get ⟨j, hj⟩).id = i ∧ (ts'.get ⟨j, hj⟩).completed = false ∧
          (∀ k (hk : k < j), (ts'.get ⟨k, hk.trans hj⟩).id ≠ i) ∧
          (complete_task ts' i).1 =
            ts'.set j { ts'.get ⟨j, hj⟩ with completed := true })) ∧
    (complete_task
        (complete_task [{ id := 1, description := "a", completed := false,
                          created_at := "t" }] 1).1 1).1
      = (complete_task [{ id := 1, description := "a", completed := false,
                          created_at := "t" }] 1).1 ∧
    (complete_task
        (complete_task [{ id := 1, description := "a", completed := false,
                          created_at := "t" }] 1).1 1).2.1 = .alreadyCompleted ∧
    (complete_task
        (complete_task [{ id := 1, description := "a", completed := false,
                          created_at := "t" }] 1).1 1).2.2 = false :=
  complete_task_outcomes_and_idempotent
    [{ id := 1, description := "a", completed := false, created_at := "t" }] 1
    (by decide)

/-- C4, counterexample: on the reachable duplicate-id store, deleting
id 2 twice succeeds twice — the second call removes the second task with
id 2 instead of reporting not-found. -/
theorem delete_twice_not_found_fails_on_duplicate_ids :
    ¬ ∀ (ts : List Task) (i : Nat),
        (delete_task (delete_task ts i).1 i).2.1 = none := by
  intro hall
  have hsecond := hall dupState 2
  rw [show (delete_task (delete_task dupState 2).1 2).2.1 = some "c" from rfl] at hsecond
  exact Option.noConfusion hsecond

/-- C4, amended: on every store in which at most one task carries the
requested id (in particular on any store with unique ids), deleting that
id twice in succession yields the not-found outcome on the second call. -/
theorem delete_twice_not_found_of_unique_id (ts : List Task) (i : Nat)
    (h : ts.countP (fun t => t.id == i) ≤ 1) :
    (delete_task (delete_task ts i).1 i).2.1 = none := by
  induction ts with
  | nil => rfl
  | cons t rest ih =>
    by_cases ht : t.id = i
    · have h0 : rest.countP (fun t => t.id == i) = 0 := by
        have hc : (t :: rest).countP (fun t => t.id == i)
            = rest.countP (fun t => t.id == i) + 1 := by
          simp [List.countP_cons, ht]
        omega
      have hnone : ∀ x ∈ rest, x.id ≠ i := by
        intro x hx
        have := List.countP_eq_zero.1 h0 x hx
        simpa using this
      simp only [delete_task, if_pos ht]
      rw [delete_of_not_mem rest i hnone]
    · have hcount : rest.countP (fun t => t.id == i) ≤ 1 := by
        have hc : (t :: rest).countP (fun t => t.id == i)
            = rest.countP (fun t => t.id == i) := by
          simp [List.countP_cons, ht]
        omega
      simp only [delete_task, if_neg ht]
      exact ih hcount

/-- C4, witness: the amended theorem evaluated on a one-task store. -/
theorem delete_twice_not_found_of_unique_id_witness :
    (([{ id := 1, description := "a", completed := false,
         created_at := "t" }] : List Task).countP (fun t => t.id == 1) ≤ 1) ∧
    (delete_task
        (delete_task [{ id := 1, description := "a", completed := false,
                        created_at := "t" }] 1).1 1).2.1 = none :=
  ⟨by decide,
   delete_twice_not_found_of_unique_id
     [{ id := 1, description := "a", completed := false, created_at := "t" }] 1
     (by decide)⟩

/-- Removing the completed tasks removes `countP completed` many of them:
the count returned by `clear_completed` equals the number of tasks whose
flag was set at call time. -/
lemma clear_removed_eq_countP (ts : List Task) :
    ts.length - (ts.filter fun t => !t.completed).length
      = ts.countP fun t => t.completed := by
  induction ts with
  | nil => rfl
  | cons t rest ih =>
    have hle := List.length_filter_le (fun t : Task => !t.completed) rest
    by_cases hc : t.completed <;>
      simp [hc, List.countP_cons, List.filter_cons] <;> omega

/-- C5: `clear_completed` keeps exactly the tasks whose flag is false, in
their original relative order (the survivors form a sublist of the input),
returns the number of completed tasks it removed, and saves exactly when
that number is positive. -/
theorem clear_completed_correct :
    ∀ ts : List Task,
      (clear_completed ts).1 = ts.filter (fun t => !t.completed) ∧
      (clear_completed ts).1.Sublist ts ∧
      (∀ t : Task, t ∈ (clear_completed ts).1 ↔ t ∈ ts ∧ t.completed = false) ∧
      (clear_completed ts).2.1 = ts.countP (fun t => t.completed) ∧
      ((clear_completed ts).2.2 = true ↔ 0 < ts.countP (fun t => t.completed)) := by
  intro ts
  refine ⟨rfl, List.filter_sublist ts, ?_, ?_, ?_⟩
  · intro t
    simp [clear_completed, List.mem_filter]
  · exact clear_removed_eq_countP ts
  · show decide (0 < ts.length - (ts.filter fun t => !t.completed).length) = true ↔ _
    rw [clear_removed_eq_countP ts]
    exact decide_eq_true_iff

/-- C6: when no task carries the requested id, `delete_task` signals
not-found and leaves the store untouched without saving; otherwise it
removes exactly the first matching position, returns that task's
description and saves; the surviving tasks keep their relative order
(the result is a sublist of the input). -/
theorem delete_task_correct (ts : List Task) (i : Nat) :
    ((∀ t ∈ ts, t.id ≠ i) → delete_task ts i = (ts, none, false)) ∧
    (∀ (j : Nat) (hj : j < ts.length),
      (ts.get ⟨j, hj⟩).id = i →
      (∀ k (hk : k < j), (ts.get ⟨k, hk.trans hj⟩).id ≠ i) →
      delete_task ts i = (ts.eraseIdx j, some (ts.get ⟨j, hj⟩).description, true)) ∧
    (delete_task ts i).1.Sublist ts := by
  refine ⟨delete_of_not_mem ts i, delete_of_first ts i, ?_⟩
  by_cases hex : ∃ t ∈ ts, t.id = i
  · rcases exists_first_match ts i hex with ⟨j, hj, hid, hfirst⟩
    rw [delete_of_first ts i j hj hid hfirst]
    exact List.eraseIdx_sublist ts j
  · push_neg at hex
    rw [delete_of_not_mem ts i hex]

/-- Editing a task never changes any completion flag. -/
lemma edit_map_completed (ts : List Task) (i : Nat) (d : String) :
    (edit_task ts i d).1.map Task.completed = ts.map Task.completed := by
  induction ts with
  | nil => rfl
  | cons t rest ih =>
    by_cases ht : t.id = i
    · simp [edit_task, ht]
    · simp [edit_task, ht, ih]

/-- Editing a task never changes any creation timestamp. -/
lemma edit_map_created_at (ts : List Task) (i : Nat) (d : String) :
    (edit_task ts i d).1.map Task.created_at = ts.map Task.created_at := by
  induction ts with
  | nil => rfl
  | cons t rest ih =>
    by_cases ht : t.id = i
    · simp [edit_task, ht]
    · simp [edit_task, ht, ih]

/-- C7: when no task carries the requested id, `edit_task` signals
not-found and leaves the store untouched without saving; otherwise it
rewrites exactly the first matching position to the same task with the
new description (so that task's id, flag and timestamp are untouched, as
is every other position), returns the old and new description, and
saves; moreover no edit ever changes any task's id, completion flag or
creation timestamp. -/
theorem edit_task_correct (ts : List Task) (i : Nat) (d : String) :
    ((∀ t ∈ ts, t.id ≠ i) → edit_task ts i d = (ts, none, false)) ∧
    (∀ (j : Nat) (hj : j < ts.length),
      (ts.get ⟨j, hj⟩).id = i →
      (∀ k (hk : k < j), (ts.get ⟨k, hk.trans hj⟩).id ≠ i) →
      edit_task ts i d =
        (ts.set j { ts.get ⟨j, hj⟩ with description := d },
         some ((ts.get ⟨j, hj⟩).description, d), true)) ∧
    (edit_task ts i d).1.map Task.id = ts.map Task.id ∧
    (edit_task ts i d).1.map Task.completed = ts.map Task.completed ∧
    (edit_task ts i d).1.map Task.created_at = ts.map Task.created_at :=
  ⟨edit_of_not_mem ts i d, edit_of_first ts i d, edit_map_id ts i d,
   edit_map_completed ts i d, edit_map_created_at ts i d⟩

/-- `startsWithChars hay needle` holds exactly when the needle is an
initial segment of the haystack. -/
lemma startsWithChars_iff (hay needle : List Char) :
    startsWithChars hay needle = true ↔ ∃ rest, hay = needle ++ rest := by
  induction hay generalizing needle with
  | nil =>
    cases needle with
    | nil => simp [startsWithChars]
    | cons n ns => simp [startsWithChars]
  | cons c hs ih =>
    cases needle with
    | nil => simp [startsWithChars]
    | cons n ns =>
      simp only [startsWithChars, Bool.and_eq_true, decide_eq_true_eq, ih,
        List.cons_append, List.cons_eq_cons]
      constructor
      · rintro ⟨rfl, rest, rfl⟩
        exact ⟨rest, rfl, rfl⟩
      · rintro ⟨rest, rfl, rfl⟩
        exact ⟨rfl, rest, rfl⟩

/-- `containsChars hay needle` holds exactly when the needle occurs as a
contiguous substring of the haystack. -/
lemma containsChars_iff (hay needle : List Char) :
    containsChars hay needle = true ↔ ∃ pre post, hay = pre ++ needle ++ post := by
  induction hay with
  | nil =>
    simp only [containsChars, List.isEmpty_iff]
    constructor
    · rintro rfl
      exact ⟨[], [], rfl⟩
    · rintro ⟨pre, post, h⟩
      rcases List.append_eq_nil.1 h.symm with ⟨h1, -⟩
      exact (List.append_eq_nil.1 h1).2
  | cons c hs ih =>
    simp only [containsChars, Bool.or_eq_true, startsWithChars_iff, ih]
    constructor
    · rintro (⟨rest, hstart⟩ | ⟨pre, post, rfl⟩)
      · exact ⟨[], rest, by simpa using hstart⟩
      · exact ⟨c :: pre, post, rfl⟩
    · rintro ⟨pre, post, heq⟩
      cases pre with
      | nil => exact Or.inl ⟨post, by simpa using heq⟩
      | cons p pre' =>
        rw [List.cons_append, List.cons_append, List.cons_eq_cons] at heq
        exact Or.inr ⟨pre', post, heq.2⟩

/-- C8: `search_tasks` reads the store without changing it and without
saving, and returns exactly the tasks whose lower-cased description
contains the lower-cased keyword as a contiguous substring, in their
original order (the result is a sublist of the store); the result is
empty exactly when no stored task matches. -/
theorem search_tasks_correct (ts : List Task) (keyword : String) :
    (search_tasks ts keyword).1 = ts ∧
    (search_tasks ts keyword).2.2 = false ∧
    (search_tasks ts keyword).2.1.Sublist ts ∧
    (∀ t : Task, t ∈ (search_tasks ts keyword).2.1 ↔
      t ∈ ts ∧ ∃ pre post : List Char,
        t.description.toLower.data = pre ++ keyword.toLower.data ++ post) ∧
    ((search_tasks ts keyword).2.1 = [] ↔
      ∀ t ∈ ts, ¬ ∃ pre post : List Char,
        t.description.toLower.data = pre ++ keyword.toLower.data ++ post) := by
  refine ⟨rfl, rfl, List.filter_sublist ts, ?_, ?_⟩
  · intro t
    show t ∈ ts.filter _ ↔ _
    rw [List.mem_filter, containsChars_iff]
  · show ts.filter _ = [] ↔ _
    rw [List.filter_eq_nil_iff]
    constructor
    · intro h t ht
      have := h t ht
      rwa [containsChars_iff] at this
    · intro h t ht
      rw [containsChars_iff]
      exact h t ht

/-- Rounding to the nearest integer moves a rational by at most one
half. -/
lemma roundHalfEven_close (q : ℚ) : |(roundHalfEven q : ℚ) - q| ≤ 1 / 2 := by
  have h0 : (⌊q⌋ : ℚ) ≤ q := Int.floor_le q
  have h1 : q < ⌊q⌋ + 1 := Int.lt_floor_add_one q
  unfold roundHalfEven
  by_cases hlt : q - ⌊q⌋ < 1 / 2
  · rw [if_pos hlt, abs_le]
    constructor <;> linarith
  · rw [if_neg hlt]
    by_cases hgt : 1 / 2 < q - ⌊q⌋
    · rw [if_pos hgt]
      push_cast
      rw [abs_le]
      constructor <;> linarith
    · rw [if_neg hgt]
      have heq : q - ⌊q⌋ = 1 / 2 := le_antisymm (not_lt.1 hgt) (not_lt.1 hlt)
      by_cases he : Even ⌊q⌋
      · rw [if_pos he, abs_le]
        constructor <;> linarith
      · rw [if_neg he]
        push_cast
        rw [abs_le]
        constructor <;> linarith

/-- The displayed one-decimal rate differs from the exact rate by at most
half of the last displayed digit. -/
lemma round1_close (q : ℚ) : |round1 q - q| ≤ 1 / 20 := by
  have h := roundHalfEven_close (10 * q)
  have heq : round1 q - q = ((roundHalfEven (10 * q) : ℚ) - 10 * q) / 10 := by
    unfold round1
    ring
  rw [heq, abs_div]
  have h10 : |(10 : ℚ)| = 10 := by norm_num
  rw [h10]
  linarith

/-- Completed and not-completed tasks together exhaust the store. -/
lemma countP_completed_split (ts : List Task) :
    ts.countP (fun t => t.completed) + ts.countP (fun t => !t.completed)
      = ts.length := by
  induction ts with
  | nil => rfl
  | cons t rest ih =>
    by_cases hc : t.completed <;> simp [List.countP_cons, hc] <;> omega

/-- C9: `show_statistics` reads the store without changing it and without
saving; on a nonempty store it reports `total` = the number of tasks,
`completed` = the number with the flag set, `pending = total - completed`
(which equals the number of unset flags), and the completion rate
`completed / total * 100` (0 when `total` is 0, the guarded branch of
line 129); the displayed value rounds that rate to one decimal place:
it is an integer multiple of `1/10` within `1/20` of the exact rate. -/
theorem show_statistics_correct (ts : List Task) :
    (show_statistics ts).1 = ts ∧
    (show_statistics ts).2.2 = false ∧
    (show_statistics ts).2.1 =
      (if ts.isEmpty then none else some
        { total := ts.length
          completed := ts.countP (fun t => t.completed)
          pending := ts.length - ts.countP (fun t => t.completed)
          completion_rate :=
            completionRate (ts.countP fun t => t.completed) ts.length }) ∧
    ts.countP (fun t => t.completed) + ts.countP (fun t => !t.completed)
      = ts.length ∧
    (∀ c : Nat, completionRate c 0 = 0) ∧
    (∀ c n : Nat, 0 < n → completionRate c n = (c : ℚ) / (n : ℚ) * 100) ∧
    |formatted_rate ts
        - completionRate (ts.countP fun t => t.completed) ts.length| ≤ 1 / 20 ∧
    (∃ z : ℤ, formatted_rate ts = (z : ℚ) / 10) := by
  refine ⟨?_, ?_, ?_, countP_completed_split ts, ?_, ?_, ?_, ?_⟩
  · unfold show_statistics
    split <;> rfl
  · unfold show_statistics
    split <;> rfl
  · unfold show_statistics
    split <;> rfl
  · intro c
    simp [completionRate]
  · intro c n hn
    simp [completionRate, hn]
  · exact round1_close _
  · exact ⟨roundHalfEven (10 * completionRate (ts.countP fun t => t.completed) ts.length), rfl⟩

/-- C10: when a later position `k` carries the same id as the first
matching position `j`, each of `complete_task`, `edit_task` and
`delete_task` acts only on position `j`: complete and edit leave every
other position (in particular `k`) byte-for-byte unchanged, and delete
removes exactly position `j`, so the later duplicate survives, shifted
one slot down. -/
theorem duplicate_id_ops_affect_first_match (ts : List Task) (i : Nat)
    (j k : Nat) (hj : j < ts.length) (hk : k < ts.length) (hjk : j < k)
    (hidj : (ts.get ⟨j, hj⟩).id = i) (hidk : (ts.get ⟨k, hk⟩).id = i)
    (hfirst : ∀ m (hm : m < j), (ts.get ⟨m, hm.trans hj⟩).id ≠ i) :
    ((∀ m : Nat, m ≠ j → (complete_task ts i).1[m]? = ts[m]?) ∧
      (complete_task ts i).1[k]? = ts[k]?) ∧
    (∀ d : String,
      (∀ m : Nat, m ≠ j → (edit_task ts i d).1[m]? = ts[m]?) ∧
      (edit_task ts i d).1[k]? = ts[k]?) ∧
    ((delete_task ts i).1 = ts.eraseIdx j ∧
      (delete_task ts i).1[k - 1]? = ts[k]?) := by
  refine ⟨?_, ?_, ?_⟩
  · have hchar := complete_of_first ts i j hj hidj hfirst
    by_cases hc : (ts.get ⟨j, hj⟩).completed
    · rw [hchar, if_pos hc]
      exact ⟨fun m _ => rfl, rfl⟩
    · rw [hchar, if_neg hc]
      exact ⟨fun m hm => List.getElem?_set_ne (Ne.symm hm),
        List.getElem?_set_ne (Nat.ne_of_lt hjk)⟩
  · intro d
    rw [edit_of_first ts i d j hj hidj hfirst]
    exact ⟨fun m hm => List.getElem?_set_ne (Ne.symm hm),
      List.getElem?_set_ne (Nat.ne_of_lt hjk)⟩
  · rw [delete_of_first ts i j hj hidj hfirst]
    refine ⟨rfl, ?_⟩
    have hk1 : k - 1 + 1 = k := Nat.succ_pred_eq_of_pos (Nat.zero_lt_of_lt hjk)
    rw [List.getElem?_eraseIdx_of_ge _ _ _ (Nat.le_sub_one_of_lt hjk), hk1]

/-- C10, witness: on the reachable duplicate-id store, completing,
editing or deleting id 2 touches only the first of the two tasks with
that id; the second survives unchanged. -/
theorem duplicate_id_ops_affect_first_match_witness :
    ((∀ m : Nat, m ≠ 0 → (complete_task dupState 2).1[m]? = dupState[m]?) ∧
      (complete_task dupState 2).1[1]? = dupState[1]?) ∧
    (∀ d : String,
      (∀ m : Nat, m ≠ 0 → (edit_task dupState 2 d).1[m]? = dupState[m]?) ∧
      (edit_task dupState 2 d).1[1]? = dupState[1]?) ∧
    ((delete_task dupState 2).1 = dupState.eraseIdx 0 ∧
      (delete_task dupState 2).1[1 - 1]? = dupState[1]?) :=
  duplicate_id_ops_affect_first_match dupState 2 0 1 (by decide) (by decide)
    (by decide) (by decide) (by decide)
    (fun m hm => absurd hm (Nat.not_lt_zero m))

end TaskManager
